import Mathlib

/-!
# Verification of the instrumented merge-sort engine (`src/algorithm.py`)

Shallow embedding of the `MergeSort` class from `algorithm.py`.

* Elements are generic over a type `α` with a boolean comparison `le`
  (the Python code only uses `<=` on elements); the reference behaviour
  uses `Int` with `decide (a ≤ b)`.
* The mutable engine state (`self.steps`, `self.comparisons`,
  `self.array_accesses`) is threaded explicitly as a `SortState`.
* Python lists are `List α`; the in-place writes `arr[k] = v` become
  `List.set`, and slices `arr[a:b]` become `(arr.drop a).take (b - a)`.
* The `description` strings carried by each step dictionary are
  presentation-only text and are not modelled; every other field of the
  step dictionaries is.
-/

namespace AlgorithmViz

/-- One step record appended to `self.steps`, one constructor per value of
the `'type'` discriminator used in `algorithm.py`.  Field names follow the
dictionary keys (minus the `description` string). -/
inductive Step (α : Type) where
  /-- `{'type': 'divide', 'array': …, 'left': …, 'right': …, 'mid': …}` -/
  | divide (array : List α) (left right mid : Nat)
  /-- `{'type': 'merge_start', 'array': …, 'left': …, 'mid': …, 'right': …,
      'left_subarray': …, 'right_subarray': …}` -/
  | merge_start (array : List α) (left mid right : Nat)
      (left_subarray right_subarray : List α)
  /-- `{'type': 'merge_step', 'array': …, 'comparing': [l, r], 'chosen': …,
      'position': …}` -/
  | merge_step (array : List α) (comparing : α × α) (chosen : α) (position : Nat)
  /-- `{'type': 'merge_remaining', 'array': …, 'element': …, 'position': …}` -/
  | merge_remaining (array : List α) (element : α) (position : Nat)
  /-- `{'type': 'merge_complete', 'array': …, 'left': …, 'right': …}` -/
  | merge_complete (array : List α) (left right : Nat)
  deriving DecidableEq

/-- The mutable attributes of the `MergeSort` object:
`self.steps`, `self.comparisons`, `self.array_accesses`. -/
structure SortState (α : Type) where
  steps : List (Step α)
  comparisons : Nat
  array_accesses : Nat
  deriving DecidableEq

variable {α : Type} [Inhabited α] (le : α → α → Bool)

/-- First `while` loop of `MergeSort._merge` (lines 103–132): interleave the
two buffers while both still have unread elements.  Returns the array and
the values of the loop variables `i`, `j`, `k` at loop exit, plus the
engine state. -/
structure LoopOut (α : Type) where
  arr : List α
  i : Nat
  j : Nat
  k : Nat
  s : SortState α
  deriving DecidableEq

/-- Result of one of the two drain loops of `MergeSort._merge`
(lines 135–147 and 150–162). -/
structure CopyOut (α : Type) where
  arr : List α
  k : Nat
  s : SortState α
  deriving DecidableEq

/-- `while i < len(left_arr) and j < len(right_arr): …` (lines 103–132).
Each iteration does `comparisons += 1`, `array_accesses += 2`, compares
`left_arr[i] <= right_arr[j]`, writes the chosen element to `arr[k]`,
appends a `merge_step` record when `track_steps`, advances `i` or `j`,
then does `k += 1` and `array_accesses += 1`. -/
def mergeLoop (left_arr right_arr : List α) (arr : List α) (i j k : Nat)
    (track_steps : Bool) (s : SortState α) : LoopOut α :=
  if h : i < left_arr.length ∧ j < right_arr.length then
    let s1 : SortState α :=
      { s with comparisons := s.comparisons + 1,
               array_accesses := s.array_accesses + 2 }
    if le (left_arr.getD i default) (right_arr.getD j default) then
      let arr2 := arr.set k (left_arr.getD i default)
      let s2 : SortState α :=
        if track_steps then
          { s1 with steps := s1.steps ++
              [Step.merge_step arr2
                (left_arr.getD i default, right_arr.getD j default)
                (left_arr.getD i default) k] }
        else s1
      mergeLoop left_arr right_arr arr2 (i + 1) j (k + 1) track_steps
        { s2 with array_accesses := s2.array_accesses + 1 }
    else
      let arr2 := arr.set k (right_arr.getD j default)
      let s2 : SortState α :=
        if track_steps then
          { s1 with steps := s1.steps ++
              [Step.merge_step arr2
                (left_arr.getD i default, right_arr.getD j default)
                (right_arr.getD j default) k] }
        else s1
      mergeLoop left_arr right_arr arr2 i (j + 1) (k + 1) track_steps
        { s2 with array_accesses := s2.array_accesses + 1 }
  else
    ⟨arr, i, j, k, s⟩
termination_by left_arr.length - i + (right_arr.length - j)
decreasing_by
  · omega
  · omega

/-- One drain loop of `MergeSort._merge`: `while i < len(buf): …` copies the
remaining elements of an exhausted-side buffer (the code has two textually
identical such loops, lines 135–147 for `left_arr` and 150–162 for
`right_arr`).  Each copy writes `arr[k] = buf[i]`, appends a
`merge_remaining` record when `track_steps`, and does `array_accesses += 1`. -/
def copyRemaining (buf : List α) (arr : List α) (i k : Nat)
    (track_steps : Bool) (s : SortState α) : CopyOut α :=
  if h : i < buf.length then
    let arr2 := arr.set k (buf.getD i default)
    let s2 : SortState α :=
      if track_steps then
        { s with steps := s.steps ++
            [Step.merge_remaining arr2 (buf.getD i default) k] }
      else s
    copyRemaining buf arr2 (i + 1) (k + 1) track_steps
      { s2 with array_accesses := s2.array_accesses + 1 }
  else
    ⟨arr, k, s⟩
termination_by buf.length - i
decreasing_by omega

/-- `MergeSort._merge` (lines 72–171): extract the two sub-range buffers
`left_arr = arr[left:mid+1]` and `right_arr = arr[mid+1:right+1]`, emit a
`merge_start` record, run the interleave loop and the two drain loops, and
emit a `merge_complete` record. -/
def _merge (arr : List α) (left mid right : Nat) (track_steps : Bool)
    (s : SortState α) : List α × SortState α :=
  let left_arr := (arr.drop left).take (mid + 1 - left)
  let right_arr := (arr.drop (mid + 1)).take (right + 1 - (mid + 1))
  let s1 : SortState α :=
    if track_steps then
      { s with steps := s.steps ++
          [Step.merge_start arr left mid right left_arr right_arr] }
    else s
  let o1 := mergeLoop le left_arr right_arr arr 0 0 left track_steps s1
  let o2 := copyRemaining left_arr o1.arr o1.i o1.k track_steps o1.s
  let o3 := copyRemaining right_arr o2.arr o1.j o2.k track_steps o2.s
  let s4 : SortState α :=
    if track_steps then
      { o3.s with steps := o3.s.steps ++ [Step.merge_complete o3.arr left right] }
    else o3.s
  (o3.arr, s4)

/-- `MergeSort._merge_sort_recursive` (lines 35–70): if `left >= right` the
sub-range needs no action; otherwise compute `mid = (left + right) // 2`,
emit a `divide` record, recursively sort `[left, mid]` then `[mid+1, right]`,
and merge.  (The Python call mutates `arr` in place and returns it; here the
updated array is threaded through the calls.) -/
def _merge_sort_recursive (arr : List α) (left right : Nat)
    (track_steps : Bool) (s : SortState α) : List α × SortState α :=
  if left ≥ right then
    (arr, s)
  else
    let mid := (left + right) / 2
    let s1 : SortState α :=
      if track_steps then
        { s with steps := s.steps ++ [Step.divide arr left right mid] }
      else s
    let r1 := _merge_sort_recursive arr left mid track_steps s1
    let r2 := _merge_sort_recursive r1.1 (mid + 1) right track_steps r1.2
    _merge le r2.1 left mid right track_steps r2.2
termination_by right - left
decreasing_by
  · omega
  · omega

/-- `MergeSort.merge_sort` (lines 13–33): when `track_steps`, reset
`self.steps`, `self.comparisons`, `self.array_accesses`; a sequence of
length ≤ 1 is returned as is; otherwise sort a copy over the full index
range `[0, len(arr) - 1]`. -/
def merge_sort (arr : List α) (track_steps : Bool) (s : SortState α) :
    List α × SortState α :=
  let s0 : SortState α := if track_steps then ⟨[], 0, 0⟩ else s
  if arr.length ≤ 1 then
    (arr, s0)
  else
    _merge_sort_recursive le arr 0 (arr.length - 1) track_steps s0

/-- The comparison actually used by the reference behaviour: Python `<=`
on integers. -/
def intLe : Int → Int → Bool := fun a b => decide (a ≤ b)

/-- The three loop phases of `_merge` (interleave, drain left, drain right),
packaged for reasoning.  `_merge` is literally this followed by the
`merge_start` / `merge_complete` bookkeeping (`_merge_eq_mergePhase`). -/
def mergePhase (L R arr : List α) (i j k : Nat) (t : Bool)
    (s : SortState α) : CopyOut α :=
  let o1 := mergeLoop le L R arr i j k t s
  let o2 := copyRemaining L o1.arr o1.i o1.k t o1.s
  copyRemaining R o2.arr o1.j o2.k t o2.s

/-- Internal consistency of a single step record: a `merge_step` chooses
the left compared value exactly when `le` holds (the right one otherwise)
and its post-placement snapshot holds the chosen value at the destination;
all other record kinds carry no such obligation. -/
def stepOK (st : Step α) : Prop :=
  match st with
  | Step.merge_step a (l, r) c p =>
      ((le l r = true → c = l) ∧ (le l r = false → c = r)) ∧ a[p]? = some c
  | _ => True

/-! ### Reference-level model of the working array (for claim C4)

Python lists are heap objects mutated through references.  To state that
`merge_sort` never mutates the caller's list, the same code is modelled
once more with the working array held in a store of lists addressed by
index: every write `arr[k] = v` goes through the reference passed down to
`_merge`, and `merge_sort` passes the reference of a freshly allocated
copy (`arr.copy()`, line 32), never the caller's reference. -/

structure RefLoopOut (α : Type) where
  store : List (List α)
  i : Nat
  j : Nat
  k : Nat
  s : SortState α

structure RefCopyOut (α : Type) where
  store : List (List α)
  k : Nat
  s : SortState α

/-- `mergeLoop`, with the working array written through reference `r`. -/
def mergeLoopRef (left_arr right_arr : List α) (store : List (List α))
    (r : Nat) (i j k : Nat) (track_steps : Bool) (s : SortState α) :
    RefLoopOut α :=
  if h : i < left_arr.length ∧ j < right_arr.length then
    let s1 : SortState α :=
      { s with comparisons := s.comparisons + 1,
               array_accesses := s.array_accesses + 2 }
    if le (left_arr.getD i default) (right_arr.getD j default) then
      let arr2 := (store.getD r []).set k (left_arr.getD i default)
      let s2 : SortState α :=
        if track_steps then
          { s1 with steps := s1.steps ++
              [Step.merge_step arr2
                (left_arr.getD i default, right_arr.getD j default)
                (left_arr.getD i default) k] }
        else s1
      mergeLoopRef left_arr right_arr (store.set r arr2) r (i + 1) j (k + 1)
        track_steps { s2 with array_accesses := s2.array_accesses + 1 }
    else
      let arr2 := (store.getD r []).set k (right_arr.getD j default)
      let s2 : SortState α :=
        if track_steps then
          { s1 with steps := s1.steps ++
              [Step.merge_step arr2
                (left_arr.getD i default, right_arr.getD j default)
                (right_arr.getD j default) k] }
        else s1
      mergeLoopRef left_arr right_arr (store.set r arr2) r i (j + 1) (k + 1)
        track_steps { s2 with array_accesses := s2.array_accesses + 1 }
  else
    ⟨store, i, j, k, s⟩
termination_by left_arr.length - i + (right_arr.length - j)
decreasing_by
  · omega
  · omega

/-- One drain loop of `_merge`, with the working array written through
reference `r`. -/
def copyRemainingRef (buf : List α) (store : List (List α)) (r : Nat)
    (i k : Nat) (track_steps : Bool) (s : SortState α) : RefCopyOut α :=
  if h : i < buf.length then
    let arr2 := (store.getD r []).set k (buf.getD i default)
    let s2 : SortState α :=
      if track_steps then
        { s with steps := s.steps ++
            [Step.merge_remaining arr2 (buf.getD i default) k] }
      else s
    copyRemainingRef buf (store.set r arr2) r (i + 1) (k + 1) track_steps
      { s2 with array_accesses := s2.array_accesses + 1 }
  else
    ⟨store, k, s⟩
termination_by buf.length - i
decreasing_by omega

/-- `_merge`, with the working array accessed through reference `r`; the
two sub-range buffers are independent copies, as in the Python slices. -/
def _mergeRef (store : List (List α)) (r : Nat) (left mid right : Nat)
    (track_steps : Bool) (s : SortState α) : List (List α) × SortState α :=
  let arr := store.getD r []
  let left_arr := (arr.drop left).take (mid + 1 - left)
  let right_arr := (arr.drop (mid + 1)).take (right + 1 - (mid + 1))
  let s1 : SortState α :=
    if track_steps then
      { s with steps := s.steps ++
          [Step.merge_start arr left mid right left_arr right_arr] }
    else s
  let o1 := mergeLoopRef le left_arr right_arr store r 0 0 left track_steps s1
  let o2 := copyRemainingRef left_arr o1.store r o1.i o1.k track_steps o1.s
  let o3 := copyRemainingRef right_arr o2.store r o1.j o2.k track_steps o2.s
  let s4 : SortState α :=
    if track_steps then
      { o3.s with steps := o3.s.steps ++
          [Step.merge_complete (o3.store.getD r []) left right] }
    else o3.s
  (o3.store, s4)

/-- `_merge_sort_recursive`, with the working array accessed through
reference `r` (the Python code mutates one list object throughout the
recursion and returns that same object). -/
def _merge_sort_recursiveRef (store : List (List α)) (r : Nat)
    (left right : Nat) (track_steps : Bool) (s : SortState α) :
    List (List α) × SortState α :=
  if left ≥ right then
    (store, s)
  else
    let mid := (left + right) / 2
    let s1 : SortState α :=
      if track_steps then
        { s with steps := s.steps ++
            [Step.divide (store.getD r []) left right mid] }
      else s
    let r1 := _merge_sort_recursiveRef store r left mid track_steps s1
    let r2 := _merge_sort_recursiveRef r1.1 r (mid + 1) right track_steps r1.2
    _mergeRef le r2.1 r left mid right track_steps r2.2
termination_by right - left
decreasing_by
  · omega
  · omega

/-- `merge_sort` at the reference level: the caller passes reference `r`;
line 32 (`arr.copy()`) allocates a fresh list object, and the recursion
runs entirely on that fresh reference.  Returns the new store, the
reference of the returned list, and the engine state. -/
def merge_sortRef (store : List (List α)) (r : Nat) (track_steps : Bool)
    (s : SortState α) : List (List α) × Nat × SortState α :=
  let s0 : SortState α := if track_steps then ⟨[], 0, 0⟩ else s
  let arr := store.getD r []
  if arr.length ≤ 1 then
    (store, r, s0)
  else
    let rc := store.length
    let store1 := store ++ [arr]
    let p := _merge_sort_recursiveRef le store1 rc 0 (arr.length - 1)
      track_steps s0
    (p.1, rc, p.2)

/-! ## Length preservation

Every phase of the merge writes through `List.set`, so the working array
never changes length. -/

theorem copyRemaining_length (buf arr : List α) (i k : Nat) (t : Bool)
    (s : SortState α) :
    (copyRemaining buf arr i k t s).arr.length = arr.length := by
  induction arr, i, k, t, s using copyRemaining.induct buf with
  | case1 arr i k t s h arr2 s2 ih =>
    rw [copyRemaining]
    simp only [dif_pos h]
    simpa [arr2, s2] using ih
  | case2 arr i k t s h =>
    rw [copyRemaining]
    simp [dif_neg h]

theorem mergeLoop_length (L R arr : List α) (i j k : Nat) (t : Bool)
    (s : SortState α) :
    (mergeLoop le L R arr i j k t s).arr.length = arr.length := by
  induction arr, i, j, k, t, s using mergeLoop.induct le L R with
  | case1 arr i j k t s h s1 hle arr2 s2 ih =>
    rw [mergeLoop]
    simp only [dif_pos h, if_pos hle]
    simpa [arr2, s2] using ih
  | case2 arr i j k t s h s1 hle arr2 s2 ih =>
    rw [mergeLoop]
    simp only [dif_pos h, if_neg hle]
    simpa [arr2, s2] using ih
  | case3 arr i j k t s h =>
    rw [mergeLoop]
    simp [dif_neg h]

theorem _merge_length (arr : List α) (left mid right : Nat) (t : Bool)
    (s : SortState α) :
    (_merge le arr left mid right t s).1.length = arr.length := by
  rw [_merge]
  simp [copyRemaining_length, mergeLoop_length]

theorem _merge_sort_recursive_length (arr : List α) (left right : Nat)
    (t : Bool) (s : SortState α) :
    (_merge_sort_recursive le arr left right t s).1.length = arr.length := by
  by_cases h : left ≥ right
  · rw [_merge_sort_recursive]
    simp [h]
  · rw [_merge_sort_recursive]
    simp only [if_neg h]
    rw [_merge_length, _merge_sort_recursive_length, _merge_sort_recursive_length]
termination_by right - left
decreasing_by
  · omega
  · omega

/-! ## Unfolding equations

One lemma per control-flow edge of the loops in `_merge`; all later proofs
rewrite with these instead of unfolding the definitions directly. -/

theorem mergeLoop_exit (L R arr : List α) (i j k : Nat) (t : Bool)
    (s : SortState α) (h : ¬(i < L.length ∧ j < R.length)) :
    mergeLoop le L R arr i j k t s = ⟨arr, i, j, k, s⟩ := by
  rw [mergeLoop]
  simp [dif_neg h]

theorem mergeLoop_step_left (L R arr : List α) (i j k : Nat) (t : Bool)
    (s : SortState α) (h : i < L.length ∧ j < R.length)
    (hle : le (L.getD i default) (R.getD j default) = true) :
    mergeLoop le L R arr i j k t s =
      mergeLoop le L R (arr.set k (L.getD i default)) (i + 1) j (k + 1) t
        ⟨(if t = true then
            s.steps ++ [Step.merge_step (arr.set k (L.getD i default))
              (L.getD i default, R.getD j default) (L.getD i default) k]
          else s.steps),
         s.comparisons + 1, s.array_accesses + 2 + 1⟩ := by
  rw [mergeLoop]
  simp only [dif_pos h, if_pos hle]
  cases t <;> simp

theorem mergeLoop_step_right (L R arr : List α) (i j k : Nat) (t : Bool)
    (s : SortState α) (h : i < L.length ∧ j < R.length)
    (hle : ¬ le (L.getD i default) (R.getD j default) = true) :
    mergeLoop le L R arr i j k t s =
      mergeLoop le L R (arr.set k (R.getD j default)) i (j + 1) (k + 1) t
        ⟨(if t = true then
            s.steps ++ [Step.merge_step (arr.set k (R.getD j default))
              (L.getD i default, R.getD j default) (R.getD j default) k]
          else s.steps),
         s.comparisons + 1, s.array_accesses + 2 + 1⟩ := by
  rw [mergeLoop]
  simp only [dif_pos h, if_neg hle]
  cases t <;> simp

theorem copyRemaining_exit (buf arr : List α) (i k : Nat) (t : Bool)
    (s : SortState α) (h : ¬ i < buf.length) :
    copyRemaining buf arr i k t s = ⟨arr, k, s⟩ := by
  rw [copyRemaining]
  simp [dif_neg h]

theorem copyRemaining_step (buf arr : List α) (i k : Nat) (t : Bool)
    (s : SortState α) (h : i < buf.length) :
    copyRemaining buf arr i k t s =
      copyRemaining buf (arr.set k (buf.getD i default)) (i + 1) (k + 1) t
        ⟨(if t = true then
            s.steps ++ [Step.merge_remaining (arr.set k (buf.getD i default))
              (buf.getD i default) k]
          else s.steps),
         s.comparisons, s.array_accesses + 1⟩ := by
  rw [copyRemaining]
  simp only [dif_pos h]
  cases t <;> simp

theorem _merge_eq_mergePhase (arr : List α) (left mid right : Nat) (t : Bool)
    (s : SortState α) :
    _merge le arr left mid right t s =
      (let L := (arr.drop left).take (mid + 1 - left)
       let R := (arr.drop (mid + 1)).take (right + 1 - (mid + 1))
       let o3 := mergePhase le L R arr 0 0 left t
         (if t = true then
            { s with steps := s.steps ++ [Step.merge_start arr left mid right L R] }
          else s)
       (o3.arr,
        if t = true then
          { o3.s with steps := o3.s.steps ++ [Step.merge_complete o3.arr left right] }
        else o3.s)) := by
  rw [_merge]
  simp only [mergePhase]

theorem mergePhase_step_left (L R arr : List α) (i j k : Nat) (t : Bool)
    (s : SortState α) (h : i < L.length ∧ j < R.length)
    (hle : le (L.getD i default) (R.getD j default) = true) :
    mergePhase le L R arr i j k t s =
      mergePhase le L R (arr.set k (L.getD i default)) (i + 1) j (k + 1) t
        ⟨(if t = true then
            s.steps ++ [Step.merge_step (arr.set k (L.getD i default))
              (L.getD i default, R.getD j default) (L.getD i default) k]
          else s.steps),
         s.comparisons + 1, s.array_accesses + 2 + 1⟩ := by
  simp only [mergePhase]
  rw [mergeLoop_step_left le L R arr i j k t s h hle]

theorem mergePhase_step_right (L R arr : List α) (i j k : Nat) (t : Bool)
    (s : SortState α) (h : i < L.length ∧ j < R.length)
    (hle : ¬ le (L.getD i default) (R.getD j default) = true) :
    mergePhase le L R arr i j k t s =
      mergePhase le L R (arr.set k (R.getD j default)) i (j + 1) (k + 1) t
        ⟨(if t = true then
            s.steps ++ [Step.merge_step (arr.set k (R.getD j default))
              (L.getD i default, R.getD j default) (R.getD j default) k]
          else s.steps),
         s.comparisons + 1, s.array_accesses + 2 + 1⟩ := by
  simp only [mergePhase]
  rw [mergeLoop_step_right le L R arr i j k t s h hle]

theorem mergePhase_exit_left (L R arr : List α) (i j k : Nat) (t : Bool)
    (s : SortState α) (h : ¬ i < L.length) :
    mergePhase le L R arr i j k t s = copyRemaining R arr j k t s := by
  simp only [mergePhase]
  rw [mergeLoop_exit le L R arr i j k t s (by tauto)]
  rw [copyRemaining_exit L arr i k t s h]

theorem mergePhase_exit_right (L R arr : List α) (i j k : Nat) (t : Bool)
    (s : SortState α) (h : ¬ j < R.length) :
    mergePhase le L R arr i j k t s = copyRemaining L arr i k t s := by
  simp only [mergePhase]
  rw [mergeLoop_exit le L R arr i j k t s (by tauto)]
  rw [copyRemaining_exit R _ j _ t _ h]

/-! ## Master characterisation of the loop phases

For fixed array/index arguments, the array result, the final write index,
and the counter increments do not depend on the instrumentation flag or on
the incoming engine state; the trace is append-only, and nothing is
appended when the flag is off. -/

theorem copyRemaining_spec (buf arr : List α) (i k : Nat) :
    ∃ a k' d, ∀ (t : Bool) (s : SortState α),
      (copyRemaining buf arr i k t s).arr = a ∧
      (copyRemaining buf arr i k t s).k = k' ∧
      (copyRemaining buf arr i k t s).s.comparisons = s.comparisons ∧
      (copyRemaining buf arr i k t s).s.array_accesses = s.array_accesses + d ∧
      ∃ ts, (copyRemaining buf arr i k t s).s.steps = s.steps ++ ts ∧
        (t = false → ts = []) := by
  by_cases h : i < buf.length
  · obtain ⟨a, k', d, hrec⟩ :=
      copyRemaining_spec buf (arr.set k (buf.getD i default)) (i + 1) (k + 1)
    refine ⟨a, k', d + 1, fun t s => ?_⟩
    rw [copyRemaining_step buf arr i k t s h]
    obtain ⟨h1, h2, h3, h4, ts, h5, h6⟩ := hrec t
      ⟨(if t = true then
          s.steps ++ [Step.merge_remaining (arr.set k (buf.getD i default))
            (buf.getD i default) k]
        else s.steps),
       s.comparisons, s.array_accesses + 1⟩
    refine ⟨h1, h2, by rw [h3], by rw [h4]; simp only [SortState.array_accesses]; omega, ?_⟩
    refine ⟨(if t = true then
        [Step.merge_remaining (arr.set k (buf.getD i default))
          (buf.getD i default) k] else []) ++ ts, ?_, ?_⟩
    · rw [h5]
      cases t <;> simp
    · intro ht
      subst ht
      simpa using h6 rfl
  · exact ⟨arr, k, 0, fun t s => by
      rw [copyRemaining_exit buf arr i k t s h]
      exact ⟨rfl, rfl, rfl, by simp, [], by simp, fun _ => rfl⟩⟩
termination_by buf.length - i
decreasing_by omega

theorem mergePhase_spec (L R arr : List α) (i j k : Nat) :
    ∃ a k' d₁ d₂, ∀ (t : Bool) (s : SortState α),
      (mergePhase le L R arr i j k t s).arr = a ∧
      (mergePhase le L R arr i j k t s).k = k' ∧
      (mergePhase le L R arr i j k t s).s.comparisons = s.comparisons + d₁ ∧
      (mergePhase le L R arr i j k t s).s.array_accesses = s.array_accesses + d₂ ∧
      ∃ ts, (mergePhase le L R arr i j k t s).s.steps = s.steps ++ ts ∧
        (t = false → ts = []) := by
  by_cases h : i < L.length ∧ j < R.length
  · by_cases hle : le (L.getD i default) (R.getD j default) = true
    · obtain ⟨a, k', d₁, d₂, hrec⟩ :=
        mergePhase_spec L R (arr.set k (L.getD i default)) (i + 1) j (k + 1)
      refine ⟨a, k', d₁ + 1, d₂ + 3, fun t s => ?_⟩
      rw [mergePhase_step_left le L R arr i j k t s h hle]
      obtain ⟨h1, h2, h3, h4, ts, h5, h6⟩ := hrec t
        ⟨(if t = true then
            s.steps ++ [Step.merge_step (arr.set k (L.getD i default))
              (L.getD i default, R.getD j default) (L.getD i default) k]
          else s.steps),
         s.comparisons + 1, s.array_accesses + 2 + 1⟩
      refine ⟨h1, h2, by rw [h3]; simp only [SortState.comparisons]; omega, by rw [h4]; simp only [SortState.array_accesses]; omega, ?_⟩
      refine ⟨(if t = true then
          [Step.merge_step (arr.set k (L.getD i default))
            (L.getD i default, R.getD j default) (L.getD i default) k]
          else []) ++ ts, ?_, ?_⟩
      · rw [h5]
        cases t <;> simp
      · intro ht
        subst ht
        simpa using h6 rfl
    · obtain ⟨a, k', d₁, d₂, hrec⟩ :=
        mergePhase_spec L R (arr.set k (R.getD j default)) i (j + 1) (k + 1)
      refine ⟨a, k', d₁ + 1, d₂ + 3, fun t s => ?_⟩
      rw [mergePhase_step_right le L R arr i j k t s h hle]
      obtain ⟨h1, h2, h3, h4, ts, h5, h6⟩ := hrec t
        ⟨(if t = true then
            s.steps ++ [Step.merge_step (arr.set k (R.getD j default))
              (L.getD i default, R.getD j default) (R.getD j default) k]
          else s.steps),
         s.comparisons + 1, s.array_accesses + 2 + 1⟩
      refine ⟨h1, h2, by rw [h3]; simp only [SortState.comparisons]; omega, by rw [h4]; simp only [SortState.array_accesses]; omega, ?_⟩
      refine ⟨(if t = true then
          [Step.merge_step (arr.set k (R.getD j default))
            (L.getD i default, R.getD j default) (R.getD j default) k]
          else []) ++ ts, ?_, ?_⟩
      · rw [h5]
        cases t <;> simp
      · intro ht
        subst ht
        simpa using h6 rfl
  · by_cases hi : i < L.length
    · have hj : ¬ j < R.length := fun hj => h ⟨hi, hj⟩
      obtain ⟨a, k', d, hC⟩ := copyRemaining_spec L arr i k
      refine ⟨a, k', 0, d, fun t s => ?_⟩
      rw [mergePhase_exit_right le L R arr i j k t s hj]
      obtain ⟨h1, h2, h3, h4, ts, h5, h6⟩ := hC t s
      exact ⟨h1, h2, by rw [h3]; omega, h4, ts, h5, h6⟩
    · obtain ⟨a, k', d, hC⟩ := copyRemaining_spec R arr j k
      refine ⟨a, k', 0, d, fun t s => ?_⟩
      rw [mergePhase_exit_left le L R arr i j k t s hi]
      obtain ⟨h1, h2, h3, h4, ts, h5, h6⟩ := hC t s
      exact ⟨h1, h2, by rw [h3]; omega, h4, ts, h5, h6⟩
termination_by L.length - i + (R.length - j)
decreasing_by
  · omega
  · omega

/-! ## What the loop phases do to the array

The interleave loop followed by the two drain loops writes exactly
`List.merge` of the unread parts of the two buffers into positions
`k, k+1, …`, leaving the rest of the array unchanged. -/

theorem drop_getD_cons (l : List α) (i : Nat) (h : i < l.length) :
    l.drop i = l.getD i default :: l.drop (i + 1) := by
  rw [List.drop_eq_getElem_cons h]
  simp [List.getD_eq_getElem?_getD, List.getElem?_eq_getElem h]

omit [Inhabited α] in
theorem set_take_succ (arr : List α) (k : Nat) (v : α) (h : k < arr.length) :
    (arr.set k v).take (k + 1) = arr.take k ++ [v] := by
  have hlen : (arr.take k).length = k := by
    simp
    omega
  rw [List.set_take, List.take_succ, List.getElem?_eq_getElem h]
  rw [List.set_append_right _ _ (by omega)]
  simp [hlen]

omit [Inhabited α] in
theorem set_drop_high (arr : List α) (k m : Nat) (v : α) (h : k < m) :
    (arr.set k v).drop m = arr.drop m := by
  rw [List.drop_set, if_pos h]

theorem copyRemaining_decomp (buf arr : List α) (i k : Nat) (t : Bool)
    (s : SortState α) (hi : i ≤ buf.length)
    (hk : k + (buf.length - i) ≤ arr.length) :
    (copyRemaining buf arr i k t s).arr =
      arr.take k ++ buf.drop i ++ arr.drop (k + (buf.length - i)) ∧
    (copyRemaining buf arr i k t s).k = k + (buf.length - i) := by
  by_cases h : i < buf.length
  · rw [copyRemaining_step buf arr i k t s h]
    have hklt : k < arr.length := by omega
    obtain ⟨ih1, ih2⟩ := copyRemaining_decomp buf
      (arr.set k (buf.getD i default)) (i + 1) (k + 1) t
      ⟨(if t = true then
          s.steps ++ [Step.merge_remaining (arr.set k (buf.getD i default))
            (buf.getD i default) k]
        else s.steps),
       s.comparisons, s.array_accesses + 1⟩
      (by omega) (by simp; omega)
    have harith : k + 1 + (buf.length - (i + 1)) = k + (buf.length - i) := by
      omega
    constructor
    · rw [ih1, harith, set_take_succ arr k _ hklt,
        set_drop_high arr k _ _ (by omega), drop_getD_cons buf i h]
      simp
    · rw [ih2, harith]
  · rw [copyRemaining_exit buf arr i k t s h]
    have h0 : buf.length - i = 0 := by omega
    have hd : buf.drop i = [] := List.drop_eq_nil_of_le (by omega)
    refine ⟨?_, by simp [h0]⟩
    rw [h0, hd]
    simp
termination_by buf.length - i
decreasing_by omega

theorem mergePhase_decomp (L R arr : List α) (i j k : Nat) (t : Bool)
    (s : SortState α) (hi : i ≤ L.length) (hj : j ≤ R.length)
    (hk : k + (L.length - i) + (R.length - j) ≤ arr.length) :
    (mergePhase le L R arr i j k t s).arr =
      arr.take k ++ List.merge (L.drop i) (R.drop j) le ++
        arr.drop (k + (L.length - i) + (R.length - j)) := by
  by_cases h : i < L.length ∧ j < R.length
  · have hklt : k < arr.length := by omega
    have harith : k + 1 + (L.length - (i + 1)) + (R.length - j)
        = k + (L.length - i) + (R.length - j) := by omega
    have harith' : k + 1 + (L.length - i) + (R.length - (j + 1))
        = k + (L.length - i) + (R.length - j) := by omega
    by_cases hle : le (L.getD i default) (R.getD j default) = true
    · rw [mergePhase_step_left le L R arr i j k t s h hle]
      rw [mergePhase_decomp L R (arr.set k (L.getD i default)) (i + 1) j
        (k + 1) t _ (by omega) hj (by simp; omega)]
      rw [harith, set_take_succ arr k _ hklt,
        set_drop_high arr k _ _ (by omega),
        drop_getD_cons L i h.1, drop_getD_cons R j h.2,
        List.cons_merge_cons_pos _ _ _ hle,
        ← drop_getD_cons R j h.2]
      simp
    · rw [mergePhase_step_right le L R arr i j k t s h hle]
      rw [mergePhase_decomp L R (arr.set k (R.getD j default)) i (j + 1)
        (k + 1) t _ hi (by omega) (by simp; omega)]
      rw [harith', set_take_succ arr k _ hklt,
        set_drop_high arr k _ _ (by omega),
        drop_getD_cons L i h.1, drop_getD_cons R j h.2,
        List.cons_merge_cons_neg _ _ _ hle,
        ← drop_getD_cons L i h.1]
      simp
  · by_cases hil : i < L.length
    · have hjr : ¬ j < R.length := fun hj' => h ⟨hil, hj'⟩
      rw [mergePhase_exit_right le L R arr i j k t s hjr]
      have hR : R.drop j = [] := List.drop_eq_nil_of_le (by omega)
      have h0 : R.length - j = 0 := by omega
      obtain ⟨hc, -⟩ := copyRemaining_decomp L arr i k t s hi (by omega)
      rw [hc, hR, h0, List.merge_right]
      simp
    · rw [mergePhase_exit_left le L R arr i j k t s hil]
      have hL : L.drop i = [] := List.drop_eq_nil_of_le (by omega)
      have h0 : L.length - i = 0 := by omega
      obtain ⟨hc, -⟩ := copyRemaining_decomp R arr j k t s hj (by omega)
      rw [hc, hL, h0, List.nil_merge]
      have : k + 0 + (R.length - j) = k + (R.length - j) := by omega
      rw [this]
termination_by L.length - i + (R.length - j)
decreasing_by
  · omega
  · omega


omit [Inhabited α] in
theorem mergeSort_eq_merge_halves (l : List α) (h : 2 ≤ l.length) :
    l.mergeSort le = List.merge ((l.take ((l.length + 1) / 2)).mergeSort le)
      ((l.drop ((l.length + 1) / 2)).mergeSort le) le := by
  match l, h with
  | a :: b :: xs, _ =>
    rw [List.mergeSort]
    simp [List.splitInTwo_fst, List.splitInTwo_snd]

theorem _merge_fst (arr : List α) (left mid right : Nat) (t : Bool)
    (s : SortState α) (h1 : left ≤ mid) (h2 : mid ≤ right)
    (h3 : right < arr.length) :
    (_merge le arr left mid right t s).1 =
      arr.take left ++
        List.merge ((arr.drop left).take (mid + 1 - left))
          ((arr.drop (mid + 1)).take (right + 1 - (mid + 1))) le ++
        arr.drop (right + 1) := by
  rw [_merge_eq_mergePhase]
  simp only []
  have hL : ((arr.drop left).take (mid + 1 - left)).length = mid + 1 - left := by
    simp
    omega
  have hR : ((arr.drop (mid + 1)).take (right + 1 - (mid + 1))).length
      = right + 1 - (mid + 1) := by
    simp
    omega
  rw [mergePhase_decomp le _ _ arr 0 0 left t _ (by omega) (by omega)
    (by rw [hL, hR]; omega)]
  rw [hL, hR]
  have : left + (mid + 1 - left - 0) + (right + 1 - (mid + 1) - 0) = right + 1 := by
    omega
  rw [List.drop_zero, List.drop_zero, this]

theorem _merge_sort_recursive_fst (arr : List α) (left right : Nat) (t : Bool)
    (s : SortState α) (hlr : left ≤ right) (hr : right < arr.length) :
    (_merge_sort_recursive le arr left right t s).1 =
      arr.take left ++ ((arr.drop left).take (right + 1 - left)).mergeSort le ++
        arr.drop (right + 1) := by
  by_cases h : left ≥ right
  · have heq : left = right := by omega
    subst heq
    rw [_merge_sort_recursive]
    rw [if_pos (Nat.le_refl left)]
    have h1 : left + 1 - left = 1 := by omega
    rw [h1, List.drop_eq_getElem_cons hr]
    simp only [List.take_succ_cons, List.take_zero, List.mergeSort_singleton]
    conv_lhs => rw [← List.take_append_drop left arr]
    rw [List.drop_eq_getElem_cons hr]
    simp
  · have hlt : left < right := by omega
    rw [_merge_sort_recursive]
    simp only [if_neg h]
    set M := (left + right) / 2 with hM
    have hm1 : left ≤ M := by omega
    have hm2 : M < right := by omega
    rw [_merge_sort_recursive_fst arr left M t _ hm1 (by omega)]
    set S := ((arr.drop left).take (M + 1 - left)).mergeSort le with hS
    have hSlen : S.length = M + 1 - left := by
      rw [hS]
      simp
      omega
    have hAlen : (arr.take left ++ S ++ arr.drop (M + 1)).length = arr.length := by
      simp [hSlen]
      omega
    rw [_merge_sort_recursive_fst (arr.take left ++ S ++ arr.drop (M + 1))
      (M + 1) right t _ (by omega) (by rw [hAlen]; omega)]
    have hPS : (arr.take left ++ S).length = M + 1 := by
      simp [hSlen]
      omega
    rw [List.take_left' hPS, List.drop_left' hPS]
    set T := ((arr.drop (M + 1)).take (right + 1 - (M + 1))).mergeSort le with hT
    have hTlen : T.length = right - M := by
      rw [hT]
      simp
      omega
    have hdropA : ((arr.take left ++ S) ++ arr.drop (M + 1)).drop (right + 1)
        = arr.drop (right + 1) := by
      have he : right + 1 = (arr.take left ++ S).length + (right - M) := by
        rw [hPS]
        omega
      rw [he, List.drop_append, List.drop_drop]
      congr 1
      omega
    rw [hdropA]
    have hBlen : (((arr.take left ++ S) ++ T) ++ arr.drop (right + 1)).length
        = arr.length := by
      simp [hSlen, hTlen]
      omega
    rw [_merge_fst le _ left M right t _ hm1 (by omega) (by rw [hBlen]; omega)]
    have hl : (arr.take left).length = left := by
      simp
      omega
    have hB1 : (((arr.take left ++ S) ++ T) ++ arr.drop (right + 1)).take left
        = arr.take left := by
      rw [List.append_assoc, List.append_assoc]
      exact List.take_left' hl
    have hB2 : ((((arr.take left ++ S) ++ T) ++ arr.drop (right + 1)).drop left).take
        (M + 1 - left) = S := by
      rw [List.append_assoc, List.append_assoc, List.drop_left' hl]
      exact List.take_left' hSlen
    have hB3 : ((((arr.take left ++ S) ++ T) ++ arr.drop (right + 1)).drop
        (M + 1)).take (right + 1 - (M + 1)) = T := by
      rw [List.append_assoc (arr.take left ++ S), List.drop_left' hPS]
      have he : right + 1 - (M + 1) = right - M := by omega
      rw [he]
      exact List.take_left' hTlen
    have hB4 : (((arr.take left ++ S) ++ T) ++ arr.drop (right + 1)).drop (right + 1)
        = arr.drop (right + 1) := by
      have hl2 : ((arr.take left ++ S) ++ T).length = right + 1 := by
        simp [hSlen, hTlen]
        omega
      exact List.drop_left' hl2
    rw [hB1, hB2, hB3, hB4]
    congr 1
    congr 1
    rw [mergeSort_eq_merge_halves le ((arr.drop left).take (right + 1 - left))
      (by simp; omega)]
    have hGlen : ((arr.drop left).take (right + 1 - left)).length
        = right + 1 - left := by
      simp
      omega
    rw [hGlen]
    have hsplit : (right + 1 - left + 1) / 2 = M + 1 - left := by omega
    rw [hsplit, List.take_take]
    have hmin : (M + 1 - left) ⊓ (right + 1 - left) = M + 1 - left := by omega
    rw [hmin, List.drop_take, List.drop_drop]
    have e1 : right + 1 - left - (M + 1 - left) = right + 1 - (M + 1) := by omega
    have e2 : left + (M + 1 - left) = M + 1 := by omega
    rw [e1, e2, ← hS, ← hT]
termination_by right - left
decreasing_by
  · omega
  · omega

theorem merge_sort_fst (arr : List α) (t : Bool) (s : SortState α) :
    (merge_sort le arr t s).1 = arr.mergeSort le := by
  rw [merge_sort]
  by_cases h : arr.length ≤ 1
  · rw [if_pos h]
    match arr, h with
    | [], _ => simp
    | [a], _ => simp
  · rw [if_neg h]
    rw [_merge_sort_recursive_fst le arr 0 (arr.length - 1) t _ (by omega) (by omega)]
    have h1 : arr.length - 1 + 1 = arr.length := by omega
    simp [h1]

/-! ## Claim theorems -/

/-- C1: for every finite input sequence (and either value of the
instrumentation flag), `merge_sort` returns a sequence of the same length,
containing the same multiset of elements as the input, arranged in
non-descending order. -/
theorem merge_sort_length_perm_sorted (arr : List Int) (t : Bool)
    (s : SortState Int) :
    ((merge_sort intLe arr t s).1).length = arr.length ∧
    ((merge_sort intLe arr t s).1 : Multiset Int) = (arr : Multiset Int) ∧
    List.Sorted (· ≤ ·) (merge_sort intLe arr t s).1 := by
  rw [merge_sort_fst]
  refine ⟨List.length_mergeSort arr, ?_, ?_⟩
  · rw [Multiset.coe_eq_coe]
    exact List.mergeSort_perm arr intLe
  · have hs := @List.sorted_mergeSort Int intLe
      (fun a b c hab hbc => by simp only [intLe, decide_eq_true_eq] at *; omega)
      (fun a b => by simp [intLe]; omega) arr
    exact hs.imp (fun h => by simpa [intLe] using h)

/-- C9: the instrumentation flag does not influence the sorted result:
the sequence returned with `track_steps = true` equals the one returned
with `track_steps = false`, whatever engine states the two calls start
from. -/
theorem merge_sort_fst_flag_independent (arr : List α)
    (s s' : SortState α) :
    (merge_sort le arr true s).1 = (merge_sort le arr false s').1 := by
  rw [merge_sort_fst, merge_sort_fst]

/-- C7: sorting an input of length 0 or 1 with instrumentation on returns
the input itself, an empty trace, and zero comparison / access counters. -/
theorem merge_sort_short_input (arr : List α) (s : SortState α)
    (h : arr.length ≤ 1) :
    merge_sort le arr true s = (arr, ⟨[], 0, 0⟩) := by
  rw [merge_sort]
  simp [h]

/-- Witness for C7 at the concrete input `[42]`. -/
theorem merge_sort_short_input_witness :
    ([42] : List Int).length ≤ 1 ∧
    merge_sort intLe [42] true ⟨[], 0, 0⟩ = ([42], ⟨[], 0, 0⟩) :=
  ⟨by decide, merge_sort_short_input intLe [42] ⟨[], 0, 0⟩ (by decide)⟩


theorem _merge_spec (arr : List α) (left mid right : Nat) :
    ∃ a d₁ d₂, ∀ (t : Bool) (s : SortState α),
      (_merge le arr left mid right t s).1 = a ∧
      (_merge le arr left mid right t s).2.comparisons = s.comparisons + d₁ ∧
      (_merge le arr left mid right t s).2.array_accesses
        = s.array_accesses + d₂ ∧
      ∃ ts, (_merge le arr left mid right t s).2.steps = s.steps ++ ts ∧
        (t = false → ts = []) := by
  obtain ⟨a, k', d₁, d₂, hP⟩ := mergePhase_spec le
    ((arr.drop left).take (mid + 1 - left))
    ((arr.drop (mid + 1)).take (right + 1 - (mid + 1))) arr 0 0 left
  refine ⟨a, d₁, d₂, fun t s => ?_⟩
  rw [_merge_eq_mergePhase]
  cases t with
  | false =>
    simp only [Bool.false_eq_true, if_false]
    obtain ⟨h1, h2, h3, h4, ts, h5, h6⟩ := hP false s
    exact ⟨h1, h3, h4, [], by rw [h5, h6 rfl], fun _ => rfl⟩
  | true =>
    simp only [if_true]
    obtain ⟨h1, h2, h3, h4, ts, h5, h6⟩ := hP true
      { s with steps := s.steps ++
          [Step.merge_start arr left mid right
            ((arr.drop left).take (mid + 1 - left))
            ((arr.drop (mid + 1)).take (right + 1 - (mid + 1)))] }
    refine ⟨h1, by rw [h3], by rw [h4], ?_⟩
    refine ⟨(Step.merge_start arr left mid right
        ((arr.drop left).take (mid + 1 - left))
        ((arr.drop (mid + 1)).take (right + 1 - (mid + 1))) :: ts) ++
        [Step.merge_complete a left right], ?_, by simp⟩
    rw [h5]
    rw [show (mergePhase le ((arr.drop left).take (mid + 1 - left))
      ((arr.drop (mid + 1)).take (right + 1 - (mid + 1))) arr 0 0 left true
      { s with steps := s.steps ++
          [Step.merge_start arr left mid right
            ((arr.drop left).take (mid + 1 - left))
            ((arr.drop (mid + 1)).take (right + 1 - (mid + 1)))] }).arr = a from h1]
    simp

theorem _merge_sort_recursive_spec (arr : List α) (left right : Nat) :
    ∃ a d₁ d₂, ∀ (t : Bool) (s : SortState α),
      (_merge_sort_recursive le arr left right t s).1 = a ∧
      (_merge_sort_recursive le arr left right t s).2.comparisons
        = s.comparisons + d₁ ∧
      (_merge_sort_recursive le arr left right t s).2.array_accesses
        = s.array_accesses + d₂ ∧
      ∃ ts, (_merge_sort_recursive le arr left right t s).2.steps
          = s.steps ++ ts ∧ (t = false → ts = []) := by
  by_cases h : left ≥ right
  · refine ⟨arr, 0, 0, fun t s => ?_⟩
    rw [_merge_sort_recursive, if_pos h]
    exact ⟨rfl, by simp, by simp, [], by simp, fun _ => rfl⟩
  · obtain ⟨a1, d1, e1, h1⟩ := _merge_sort_recursive_spec arr left ((left + right) / 2)
    obtain ⟨a2, d2, e2, h2⟩ := _merge_sort_recursive_spec a1 ((left + right) / 2 + 1) right
    obtain ⟨a3, d3, e3, h3⟩ := _merge_spec le a2 left ((left + right) / 2) right
    refine ⟨a3, d1 + d2 + d3, e1 + e2 + e3, fun t s => ?_⟩
    rw [_merge_sort_recursive]
    simp only [if_neg h]
    obtain ⟨g1, g2, g3, ts1, g4, g5⟩ := h1 t
      (if t = true then
        { s with steps := s.steps ++
            [Step.divide arr left right ((left + right) / 2)] }
       else s)
    rw [g1]
    obtain ⟨f1, f2, f3, ts2, f4, f5⟩ := h2 t
      (_merge_sort_recursive le arr left ((left + right) / 2) t
        (if t = true then
          { s with steps := s.steps ++
              [Step.divide arr left right ((left + right) / 2)] }
         else s)).2
    rw [f1]
    obtain ⟨m1, m2, m3, ts3, m4, m5⟩ := h3 t
      (_merge_sort_recursive le a1 ((left + right) / 2 + 1) right t
        (_merge_sort_recursive le arr left ((left + right) / 2) t
          (if t = true then
            { s with steps := s.steps ++
                [Step.divide arr left right ((left + right) / 2)] }
           else s)).2).2
    refine ⟨m1, ?_, ?_, ?_⟩
    · rw [m2, f2, g2]
      cases t <;> simp <;> omega
    · rw [m3, f3, g3]
      cases t <;> simp <;> omega
    · cases t with
      | false =>
        refine ⟨[], ?_, fun _ => rfl⟩
        rw [m4, f4, g4, g5 rfl, f5 rfl, m5 rfl]
        simp
      | true =>
        refine ⟨Step.divide arr left right ((left + right) / 2)
          :: (ts1 ++ ts2 ++ ts3), ?_, by simp⟩
        rw [m4, f4, g4]
        simp
termination_by right - left
decreasing_by
  · omega
  · omega

/-- C2 counterexample: sorting `[2, 1]` with `track_steps = false` from a
zeroed engine state does NOT leave the state as it was — the comparison
counter (and the access counter) are incremented even without
instrumentation. -/
theorem merge_sort_no_track_changes_counters :
    (merge_sort intLe [2, 1] false ⟨[], 0, 0⟩).2 ≠ (⟨[], 0, 0⟩ : SortState Int) := by
  have h : (merge_sort intLe [2, 1] false ⟨[], 0, 0⟩).2.comparisons = 1 := by
    simp [merge_sort, _merge_sort_recursive, _merge, mergeLoop, copyRemaining, intLe]
  intro he
  rw [he] at h
  simp at h

/-- C2 amended: with `track_steps = false` the trace is left exactly as it
was, but the comparison and access counters are still incremented — by
exactly the amounts an instrumented run of the same input produces (the
counter updates in `_merge` are not guarded by the flag). -/
theorem merge_sort_no_track_trace_frame (arr : List α) (s : SortState α) :
    (merge_sort le arr false s).2.steps = s.steps ∧
    (merge_sort le arr false s).2.comparisons
      = s.comparisons + (merge_sort le arr true s).2.comparisons ∧
    (merge_sort le arr false s).2.array_accesses
      = s.array_accesses + (merge_sort le arr true s).2.array_accesses := by
  rw [merge_sort, merge_sort]
  by_cases h : arr.length ≤ 1
  · simp [h]
  · simp only [if_neg h, Bool.false_eq_true, if_false, if_true]
    obtain ⟨a, d₁, d₂, hspec⟩ := _merge_sort_recursive_spec le arr 0 (arr.length - 1)
    obtain ⟨-, c1, c2, ts, c3, c4⟩ := hspec false s
    obtain ⟨-, b1, b2, ts', b3, -⟩ := hspec true ⟨[], 0, 0⟩
    refine ⟨by rw [c3, c4 rfl]; simp, ?_, ?_⟩
    · rw [c1, b1]
      simp
    · rw [c2, b2]
      simp

theorem _merge_last_step (arr : List α) (left mid right : Nat)
    (s : SortState α) :
    ∃ ts, (_merge le arr left mid right true s).2.steps
      = s.steps ++ ts ++
        [Step.merge_complete (_merge le arr left mid right true s).1 left right] := by
  obtain ⟨a, k', d₁, d₂, hP⟩ := mergePhase_spec le
    ((arr.drop left).take (mid + 1 - left))
    ((arr.drop (mid + 1)).take (right + 1 - (mid + 1))) arr 0 0 left
  obtain ⟨h1, -, -, -, ts, h5, -⟩ := hP true
    { s with steps := s.steps ++
        [Step.merge_start arr left mid right
          ((arr.drop left).take (mid + 1 - left))
          ((arr.drop (mid + 1)).take (right + 1 - (mid + 1)))] }
  refine ⟨Step.merge_start arr left mid right
      ((arr.drop left).take (mid + 1 - left))
      ((arr.drop (mid + 1)).take (right + 1 - (mid + 1))) :: ts, ?_⟩
  rw [_merge_eq_mergePhase]
  simp only [if_true]
  rw [h5, h1]
  simp

theorem _merge_sort_recursive_last_step (arr : List α) (left right : Nat)
    (s : SortState α) (hlt : left < right) :
    ∃ ts, (_merge_sort_recursive le arr left right true s).2.steps
      = s.steps ++ ts ++
        [Step.merge_complete
          (_merge_sort_recursive le arr left right true s).1 left right] := by
  rw [_merge_sort_recursive]
  rw [if_neg (by omega)]
  simp only [reduceIte]
  obtain ⟨a1, d1, e1, h1⟩ := _merge_sort_recursive_spec le arr left ((left + right) / 2)
  obtain ⟨-, -, -, ts1, g1, -⟩ := h1 true
    { s with steps := s.steps ++ [Step.divide arr left right ((left + right) / 2)] }
  obtain ⟨a2, d2, e2, h2⟩ := _merge_sort_recursive_spec le
    (_merge_sort_recursive le arr left ((left + right) / 2) true
      { s with steps := s.steps ++
          [Step.divide arr left right ((left + right) / 2)] }).1
    ((left + right) / 2 + 1) right
  obtain ⟨-, -, -, ts2, g2, -⟩ := h2 true
    (_merge_sort_recursive le arr left ((left + right) / 2) true
      { s with steps := s.steps ++
          [Step.divide arr left right ((left + right) / 2)] }).2
  obtain ⟨ts3, g3⟩ := _merge_last_step le
    (_merge_sort_recursive le
      (_merge_sort_recursive le arr left ((left + right) / 2) true
        { s with steps := s.steps ++
            [Step.divide arr left right ((left + right) / 2)] }).1
      ((left + right) / 2 + 1) right true
      (_merge_sort_recursive le arr left ((left + right) / 2) true
        { s with steps := s.steps ++
            [Step.divide arr left right ((left + right) / 2)] }).2).1
    left ((left + right) / 2) right
    (_merge_sort_recursive le
      (_merge_sort_recursive le arr left ((left + right) / 2) true
        { s with steps := s.steps ++
            [Step.divide arr left right ((left + right) / 2)] }).1
      ((left + right) / 2 + 1) right true
      (_merge_sort_recursive le arr left ((left + right) / 2) true
        { s with steps := s.steps ++
            [Step.divide arr left right ((left + right) / 2)] }).2).2
  refine ⟨Step.divide arr left right ((left + right) / 2) :: (ts1 ++ ts2 ++ ts3), ?_⟩
  rw [g3, g2, g1]
  simp

/-- C6: for an instrumented sort of a sequence of length at least 2, the
last record of the trace is the `merge_complete` record for the full range
`[0, n-1]`, and the array snapshot it carries is exactly the returned
sorted sequence. -/
theorem merge_sort_final_snapshot (arr : List α) (s : SortState α)
    (h : 2 ≤ arr.length) :
    (merge_sort le arr true s).2.steps.getLast?
      = some (Step.merge_complete (merge_sort le arr true s).1 0
          (arr.length - 1)) := by
  rw [merge_sort]
  rw [if_neg (by omega)]
  simp only [if_true]
  obtain ⟨ts, hlast⟩ := _merge_sort_recursive_last_step le arr 0 (arr.length - 1)
    ⟨[], 0, 0⟩ (by omega)
  rw [hlast]
  rw [List.getLast?_concat]


theorem mergeLoop_arr_getElem_lt (L R arr : List α) (i j k : Nat) (t : Bool)
    (s : SortState α) (p : Nat) (hp : p < k) :
    (mergeLoop le L R arr i j k t s).arr[p]? = arr[p]? := by
  induction arr, i, j, k, t, s using mergeLoop.induct le L R generalizing p with
  | case1 arr i j k t s h s1 hle arr2 s2 ih =>
    have hset : (arr.set k (L.getD i default))[p]? = arr[p]? :=
      List.getElem?_set_ne (by omega)
    rw [mergeLoop]
    simp only [dif_pos h, if_pos hle]
    rw [← hset]
    simpa [arr2, s2] using ih p (by omega)
  | case2 arr i j k t s h s1 hle arr2 s2 ih =>
    have hset : (arr.set k (R.getD j default))[p]? = arr[p]? :=
      List.getElem?_set_ne (by omega)
    rw [mergeLoop]
    simp only [dif_pos h, if_neg hle]
    rw [← hset]
    simpa [arr2, s2] using ih p (by omega)
  | case3 arr i j k t s h =>
    rw [mergeLoop_exit le L R arr i j k t s h]

/-- C3: sorting position-tagged elements by value is stable: for every
value `v`, the tagged occurrences of `v` come out of `merge_sort` exactly
in their input order; and the interleave loop places the element from the
left buffer at the current destination exactly when
`left_value <= right_value` (non-strict comparison). -/
theorem merge_sort_stable_left_biased :
    (∀ (l : List Int) (v : Int) (t : Bool) (s : SortState (Nat × Int)),
      ((merge_sort (fun p q => decide (p.2 ≤ q.2)) l.enum t s).1).filter
          (fun p => decide (p.2 = v))
        = l.enum.filter (fun p => decide (p.2 = v))) ∧
    (∀ {β : Type} [Inhabited β] (leB : β → β → Bool)
      (L R arr : List β) (i j k : Nat) (t : Bool) (s : SortState β),
      i < L.length → j < R.length → k < arr.length →
      (mergeLoop leB L R arr i j k t s).arr[k]?
        = some (if leB (L.getD i default) (R.getD j default) = true
            then L.getD i default else R.getD j default)) := by
  constructor
  · intro l v t s
    rw [merge_sort_fst]
    have htrans : ∀ (a b c : Nat × Int),
        (fun p q : Nat × Int => decide (p.2 ≤ q.2)) a b = true →
        (fun p q : Nat × Int => decide (p.2 ≤ q.2)) b c = true →
        (fun p q : Nat × Int => decide (p.2 ≤ q.2)) a c = true := by
      intro a b c hab hbc
      simp only [decide_eq_true_eq] at *
      omega
    have htotal : ∀ (a b : Nat × Int),
        ((fun p q : Nat × Int => decide (p.2 ≤ q.2)) a b ||
         (fun p q : Nat × Int => decide (p.2 ≤ q.2)) b a) = true := by
      intro a b
      simp
      omega
    have hall : ∀ x ∈ l.enum.filter (fun p => decide (p.2 = v)), x.2 = v := by
      intro x hx
      simpa using (List.mem_filter.mp hx).2
    have hc : (l.enum.filter (fun p => decide (p.2 = v))).Pairwise
        (fun a b => (fun p q : Nat × Int => decide (p.2 ≤ q.2)) a b = true) := by
      apply List.pairwise_of_forall_mem_list
      intro a ha b hb
      simp [hall a ha, hall b hb]
    have hms := List.sublist_mergeSort htrans htotal hc
      (List.filter_sublist l.enum)
    have hperm := (List.mergeSort_perm l.enum
      (fun p q : Nat × Int => decide (p.2 ≤ q.2))).filter
      (fun p => decide (p.2 = v))
    have hsub2 := hms.filter (fun p => decide (p.2 = v))
    rw [List.filter_filter] at hsub2
    have hband : (fun a : Nat × Int => decide (a.2 = v) && decide (a.2 = v))
        = (fun a : Nat × Int => decide (a.2 = v)) := by
      funext a
      exact Bool.and_self _
    rw [hband] at hsub2
    exact (hsub2.eq_of_length hperm.length_eq.symm).symm
  · intro β instB leB L R arr i j k t s hiL hjR hk
    by_cases hle : leB (L.getD i default) (R.getD j default) = true
    · rw [mergeLoop_step_left leB L R arr i j k t s ⟨hiL, hjR⟩ hle]
      rw [mergeLoop_arr_getElem_lt leB L R _ (i + 1) j (k + 1) t _ k (by omega)]
      rw [if_pos hle]
      exact List.getElem?_set_self hk
    · rw [mergeLoop_step_right leB L R arr i j k t s ⟨hiL, hjR⟩ hle]
      rw [mergeLoop_arr_getElem_lt leB L R _ i (j + 1) (k + 1) t _ k (by omega)]
      rw [if_neg hle]
      exact List.getElem?_set_self hk
/-- Witness for C3 at a concrete two-buffer merge step. -/
theorem merge_sort_stable_left_biased_witness :
    (0 < ([((0 : Nat), (2 : Int))]).length ∧
     0 < ([((1 : Nat), (1 : Int))]).length ∧
     0 < ([((0 : Nat), (2 : Int)), ((1 : Nat), (1 : Int))]).length) ∧
    (mergeLoop (fun p q : Nat × Int => decide (p.2 ≤ q.2))
        [(0, 2)] [(1, 1)] [(0, 2), (1, 1)] 0 0 0 true ⟨[], 0, 0⟩).arr[0]?
      = some (1, 1) := by
  refine ⟨⟨by decide, by decide, by decide⟩, ?_⟩
  have h := merge_sort_stable_left_biased.2
    (fun p q : Nat × Int => decide (p.2 ≤ q.2))
    [(0, 2)] [(1, 1)] [(0, 2), (1, 1)] 0 0 0 true ⟨[], 0, 0⟩
    (by decide) (by decide) (by decide)
  simpa using h

/-- Witness for C6 at the concrete input `[2, 1]`. -/
theorem merge_sort_final_snapshot_witness :
    2 ≤ ([2, 1] : List Int).length ∧
    (merge_sort intLe [2, 1] true ⟨[], 0, 0⟩).2.steps.getLast?
      = some (Step.merge_complete
          (merge_sort intLe [2, 1] true ⟨[], 0, 0⟩).1 0
          (([2, 1] : List Int).length - 1)) :=
  ⟨by decide, merge_sort_final_snapshot intLe [2, 1] ⟨[], 0, 0⟩ (by decide)⟩


/-- C5: during a merge, one interleave iteration increments the comparison
counter by exactly 1 and the access counter by exactly 2 (one read per
compared element) plus exactly 1 more for the placement; one drain copy
increments the access counter by exactly 1 and leaves the comparison
counter untouched. -/
theorem merge_counter_increments :
    (∀ (L R arr : List α) (i j k : Nat) (t : Bool) (s : SortState α),
      i < L.length → j < R.length →
      mergeLoop le L R arr i j k t s =
        (if le (L.getD i default) (R.getD j default) = true then
          mergeLoop le L R (arr.set k (L.getD i default)) (i + 1) j (k + 1) t
            ⟨(if t = true then
                s.steps ++ [Step.merge_step (arr.set k (L.getD i default))
                  (L.getD i default, R.getD j default) (L.getD i default) k]
              else s.steps),
             s.comparisons + 1, s.array_accesses + 2 + 1⟩
        else
          mergeLoop le L R (arr.set k (R.getD j default)) i (j + 1) (k + 1) t
            ⟨(if t = true then
                s.steps ++ [Step.merge_step (arr.set k (R.getD j default))
                  (L.getD i default, R.getD j default) (R.getD j default) k]
              else s.steps),
             s.comparisons + 1, s.array_accesses + 2 + 1⟩)) ∧
    (∀ (buf arr : List α) (i k : Nat) (t : Bool) (s : SortState α),
      i < buf.length →
      copyRemaining buf arr i k t s =
        copyRemaining buf (arr.set k (buf.getD i default)) (i + 1) (k + 1) t
          ⟨(if t = true then
              s.steps ++ [Step.merge_remaining (arr.set k (buf.getD i default))
                (buf.getD i default) k]
            else s.steps),
           s.comparisons, s.array_accesses + 1⟩) := by
  constructor
  · intro L R arr i j k t s hi hj
    by_cases hle : le (L.getD i default) (R.getD j default) = true
    · rw [if_pos hle]
      exact mergeLoop_step_left le L R arr i j k t s ⟨hi, hj⟩ hle
    · rw [if_neg hle]
      exact mergeLoop_step_right le L R arr i j k t s ⟨hi, hj⟩ hle
  · intro buf arr i k t s hi
    exact copyRemaining_step buf arr i k t s hi

/-- Witness for C5 at a concrete interleave iteration and drain copy. -/
theorem merge_counter_increments_witness :
    (0 < ([2] : List Int).length ∧ 0 < ([1] : List Int).length ∧
     0 < ([2] : List Int).length) ∧
    mergeLoop intLe [2] [1] [2, 1] 0 0 0 false ⟨[], 0, 0⟩
      = mergeLoop intLe [2] [1] [1, 1] 0 1 1 false ⟨[], 1, 3⟩ ∧
    copyRemaining [2] [1, 1] 0 1 false (⟨[], 1, 3⟩ : SortState Int)
      = copyRemaining [2] [1, 2] 1 2 false ⟨[], 1, 4⟩ := by
  refine ⟨⟨by decide, by decide, by decide⟩, ?_, ?_⟩
  · have h := (merge_counter_increments intLe).1 [2] [1] [2, 1] 0 0 0 false
      ⟨[], 0, 0⟩ (by decide) (by decide)
    simpa [intLe] using h
  · have h := (@merge_counter_increments Int _ intLe).2 [2] [1, 1] 0 1 false
      ⟨[], 1, 3⟩ (by decide)
    simpa using h


theorem mergeLoop_stepOK (L R arr : List α) (i j k : Nat) (t : Bool)
    (s : SortState α) (hi : i ≤ L.length) (hj : j ≤ R.length)
    (hk : k + (L.length - i) + (R.length - j) ≤ arr.length)
    (hs : ∀ st ∈ s.steps, stepOK le st) :
    ∀ st ∈ (mergeLoop le L R arr i j k t s).s.steps, stepOK le st := by
  by_cases h : i < L.length ∧ j < R.length
  · have hklt : k < arr.length := by omega
    by_cases hle : le (L.getD i default) (R.getD j default) = true
    · rw [mergeLoop_step_left le L R arr i j k t s h hle]
      apply mergeLoop_stepOK L R _ (i + 1) j (k + 1) t _ (by omega) hj
        (by simp; omega)
      intro st hst
      cases t with
      | false => exact hs st hst
      | true =>
        simp only [if_true, List.mem_append, List.mem_singleton] at hst
        rcases hst with hst | rfl
        · exact hs st hst
        · refine ⟨⟨fun _ => rfl, fun hf => ?_⟩, List.getElem?_set_self hklt⟩
          rw [hf] at hle
          simp at hle
    · rw [mergeLoop_step_right le L R arr i j k t s h hle]
      apply mergeLoop_stepOK L R _ i (j + 1) (k + 1) t _ hi (by omega)
        (by simp; omega)
      intro st hst
      cases t with
      | false => exact hs st hst
      | true =>
        simp only [if_true, List.mem_append, List.mem_singleton] at hst
        rcases hst with hst | rfl
        · exact hs st hst
        · refine ⟨⟨fun hf => ?_, fun _ => rfl⟩, List.getElem?_set_self hklt⟩
          exact absurd hf hle
  · rw [mergeLoop_exit le L R arr i j k t s h]
    exact hs
termination_by L.length - i + (R.length - j)
decreasing_by
  · omega
  · omega

theorem copyRemaining_stepOK (buf arr : List α) (i k : Nat) (t : Bool)
    (s : SortState α) (hs : ∀ st ∈ s.steps, stepOK le st) :
    ∀ st ∈ (copyRemaining buf arr i k t s).s.steps, stepOK le st := by
  by_cases h : i < buf.length
  · rw [copyRemaining_step buf arr i k t s h]
    apply copyRemaining_stepOK buf _ (i + 1) (k + 1) t
    intro st hst
    cases t with
    | false => exact hs st hst
    | true =>
      simp only [if_true, List.mem_append, List.mem_singleton] at hst
      rcases hst with hst | rfl
      · exact hs st hst
      · trivial
  · rw [copyRemaining_exit buf arr i k t s h]
    exact hs
termination_by buf.length - i
decreasing_by omega

theorem mergePhase_stepOK (L R arr : List α) (i j k : Nat) (t : Bool)
    (s : SortState α) (hi : i ≤ L.length) (hj : j ≤ R.length)
    (hk : k + (L.length - i) + (R.length - j) ≤ arr.length)
    (hs : ∀ st ∈ s.steps, stepOK le st) :
    ∀ st ∈ (mergePhase le L R arr i j k t s).s.steps, stepOK le st := by
  simp only [mergePhase]
  exact copyRemaining_stepOK le R _ _ _ t _
    (copyRemaining_stepOK le L _ _ _ t _
      (mergeLoop_stepOK le L R arr i j k t s hi hj hk hs))

theorem _merge_stepOK (arr : List α) (left mid right : Nat) (t : Bool)
    (s : SortState α) (h1 : left ≤ mid) (h2 : mid ≤ right)
    (h3 : right < arr.length) (hs : ∀ st ∈ s.steps, stepOK le st) :
    ∀ st ∈ (_merge le arr left mid right t s).2.steps, stepOK le st := by
  rw [_merge_eq_mergePhase]
  simp only []
  have hL : ((arr.drop left).take (mid + 1 - left)).length = mid + 1 - left := by
    simp
    omega
  have hR : ((arr.drop (mid + 1)).take (right + 1 - (mid + 1))).length
      = right + 1 - (mid + 1) := by
    simp
    omega
  have hmain := mergePhase_stepOK le
    ((arr.drop left).take (mid + 1 - left))
    ((arr.drop (mid + 1)).take (right + 1 - (mid + 1))) arr 0 0 left t
    (if t = true then
      { s with steps := s.steps ++
          [Step.merge_start arr left mid right
            ((arr.drop left).take (mid + 1 - left))
            ((arr.drop (mid + 1)).take (right + 1 - (mid + 1)))] }
     else s)
    (by omega) (by omega) (by rw [hL, hR]; omega)
    (by
      intro st hst
      cases t with
      | false => exact hs st hst
      | true =>
        simp only [if_true, List.mem_append, List.mem_singleton] at hst
        rcases hst with hst | rfl
        · exact hs st hst
        · trivial)
  cases t with
  | false => exact hmain
  | true =>
    simp only [if_true]
    intro st hst
    simp only [List.mem_append, List.mem_singleton] at hst
    rcases hst with hst | rfl
    · exact hmain st hst
    · trivial

theorem _merge_sort_recursive_stepOK (arr : List α) (left right : Nat)
    (t : Bool) (s : SortState α) (h3 : right < arr.length)
    (hs : ∀ st ∈ s.steps, stepOK le st) :
    ∀ st ∈ (_merge_sort_recursive le arr left right t s).2.steps, stepOK le st := by
  by_cases h : left ≥ right
  · rw [_merge_sort_recursive, if_pos h]
    exact hs
  · rw [_merge_sort_recursive]
    rw [if_neg h]
    have hs1 : ∀ st ∈ (if t = true then
        { s with steps := s.steps ++
            [Step.divide arr left right ((left + right) / 2)] }
       else s).steps, stepOK le st := by
      intro st hst
      cases t with
      | false => exact hs st hst
      | true =>
        simp only [if_true, List.mem_append, List.mem_singleton] at hst
        rcases hst with hst | rfl
        · exact hs st hst
        · trivial
    have hx1 := _merge_sort_recursive_stepOK arr left ((left + right) / 2) t
      (if t = true then
        { s with steps := s.steps ++
            [Step.divide arr left right ((left + right) / 2)] }
       else s) (by omega) hs1
    have hlen1 : (_merge_sort_recursive le arr left ((left + right) / 2) t
        (if t = true then
          { s with steps := s.steps ++
              [Step.divide arr left right ((left + right) / 2)] }
         else s)).1.length = arr.length := _merge_sort_recursive_length le _ _ _ _ _
    have hx2 := _merge_sort_recursive_stepOK
      (_merge_sort_recursive le arr left ((left + right) / 2) t
        (if t = true then
          { s with steps := s.steps ++
              [Step.divide arr left right ((left + right) / 2)] }
         else s)).1
      ((left + right) / 2 + 1) right t
      (_merge_sort_recursive le arr left ((left + right) / 2) t
        (if t = true then
          { s with steps := s.steps ++
              [Step.divide arr left right ((left + right) / 2)] }
         else s)).2
      (by rw [hlen1]; omega) hx1
    have hlen2 := _merge_sort_recursive_length le
      (_merge_sort_recursive le arr left ((left + right) / 2) t
        (if t = true then
          { s with steps := s.steps ++
              [Step.divide arr left right ((left + right) / 2)] }
         else s)).1
      ((left + right) / 2 + 1) right t
      (_merge_sort_recursive le arr left ((left + right) / 2) t
        (if t = true then
          { s with steps := s.steps ++
              [Step.divide arr left right ((left + right) / 2)] }
         else s)).2
    exact _merge_stepOK le _ left ((left + right) / 2) right t _
      (by omega) (by omega) (by rw [hlen2, hlen1]; omega) hx2
termination_by right - left
decreasing_by
  · omega
  · omega

/-- C10: every `merge_step` record in the trace of an instrumented sort is
internally consistent: its chosen value is the left compared value exactly
when `le left right` (the right one otherwise), and the array snapshot it
carries holds the chosen value at the recorded destination position. -/
theorem merge_sort_merge_step_consistent (arr : List α) (s : SortState α)
    (a : List α) (lv rv c : α) (p : Nat)
    (hmem : Step.merge_step a (lv, rv) c p
      ∈ (merge_sort le arr true s).2.steps) :
    ((le lv rv = true → c = lv) ∧ (le lv rv = false → c = rv)) ∧
    a[p]? = some c := by
  rw [merge_sort] at hmem
  by_cases h : arr.length ≤ 1
  · rw [if_pos h] at hmem
    simp at hmem
  · rw [if_neg h] at hmem
    simp only [if_true] at hmem
    have := _merge_sort_recursive_stepOK le arr 0 (arr.length - 1) true
      ⟨[], 0, 0⟩ (by omega) (by intro st hst; simp at hst) _ hmem
    simpa [stepOK] using this

/-- Witness for C10: the `merge_step` record of the instrumented sort of
`[2, 1]`. -/
theorem merge_sort_merge_step_consistent_witness :
    (Step.merge_step [1, 1] ((2 : Int), 1) 1 0
      ∈ (merge_sort intLe [2, 1] true ⟨[], 0, 0⟩).2.steps) ∧
    ((intLe 2 1 = true → (1 : Int) = 2) ∧ (intLe 2 1 = false → (1 : Int) = 1)) ∧
    ([1, 1] : List Int)[0]? = some 1 := by
  have hmem : Step.merge_step [1, 1] ((2 : Int), 1) 1 0
      ∈ (merge_sort intLe [2, 1] true ⟨[], 0, 0⟩).2.steps := by
    simp [merge_sort, _merge_sort_recursive, _merge, mergeLoop, copyRemaining, intLe]
  exact ⟨hmem, merge_sort_merge_step_consistent intLe [2, 1] ⟨[], 0, 0⟩
    [1, 1] 2 1 1 0 hmem⟩


theorem mergeLoop_comparisons_le (L R arr : List α) (i j k : Nat) (t : Bool)
    (s : SortState α) :
    (mergeLoop le L R arr i j k t s).s.comparisons
      ≤ s.comparisons + ((L.length - i) + (R.length - j)) := by
  by_cases h : i < L.length ∧ j < R.length
  · by_cases hle : le (L.getD i default) (R.getD j default) = true
    · rw [mergeLoop_step_left le L R arr i j k t s h hle]
      have := mergeLoop_comparisons_le L R (arr.set k (L.getD i default))
        (i + 1) j (k + 1) t
        ⟨(if t = true then
            s.steps ++ [Step.merge_step (arr.set k (L.getD i default))
              (L.getD i default, R.getD j default) (L.getD i default) k]
          else s.steps),
         s.comparisons + 1, s.array_accesses + 2 + 1⟩
      simp only [SortState.comparisons] at this
      omega
    · rw [mergeLoop_step_right le L R arr i j k t s h hle]
      have := mergeLoop_comparisons_le L R (arr.set k (R.getD j default))
        i (j + 1) (k + 1) t
        ⟨(if t = true then
            s.steps ++ [Step.merge_step (arr.set k (R.getD j default))
              (L.getD i default, R.getD j default) (R.getD j default) k]
          else s.steps),
         s.comparisons + 1, s.array_accesses + 2 + 1⟩
      simp only [SortState.comparisons] at this
      omega
  · rw [mergeLoop_exit le L R arr i j k t s h]
    simp only [LoopOut.s]
    omega
termination_by L.length - i + (R.length - j)
decreasing_by
  · omega
  · omega

theorem copyRemaining_comparisons (buf arr : List α) (i k : Nat) (t : Bool)
    (s : SortState α) :
    (copyRemaining buf arr i k t s).s.comparisons = s.comparisons := by
  obtain ⟨a, k', d, hC⟩ := copyRemaining_spec buf arr i k
  exact (hC t s).2.2.1

theorem mergePhase_comparisons_le (L R arr : List α) (i j k : Nat) (t : Bool)
    (s : SortState α) :
    (mergePhase le L R arr i j k t s).s.comparisons
      ≤ s.comparisons + ((L.length - i) + (R.length - j)) := by
  simp only [mergePhase]
  rw [copyRemaining_comparisons, copyRemaining_comparisons]
  exact mergeLoop_comparisons_le le L R arr i j k t s

theorem _merge_comparisons_le (arr : List α) (left mid right : Nat) (t : Bool)
    (s : SortState α) :
    (_merge le arr left mid right t s).2.comparisons
      ≤ s.comparisons + ((mid + 1 - left) + (right + 1 - (mid + 1))) := by
  rw [_merge_eq_mergePhase]
  simp only []
  have hL : ((arr.drop left).take (mid + 1 - left)).length ≤ mid + 1 - left :=
    List.length_take_le _ _
  have hR : ((arr.drop (mid + 1)).take (right + 1 - (mid + 1))).length
      ≤ right + 1 - (mid + 1) := List.length_take_le _ _
  have hmain := mergePhase_comparisons_le le
    ((arr.drop left).take (mid + 1 - left))
    ((arr.drop (mid + 1)).take (right + 1 - (mid + 1))) arr 0 0 left t
    (if t = true then
      { s with steps := s.steps ++
          [Step.merge_start arr left mid right
            ((arr.drop left).take (mid + 1 - left))
            ((arr.drop (mid + 1)).take (right + 1 - (mid + 1)))] }
     else s)
  have hcmp : (if t = true then
      { s with steps := s.steps ++
          [Step.merge_start arr left mid right
            ((arr.drop left).take (mid + 1 - left))
            ((arr.drop (mid + 1)).take (right + 1 - (mid + 1)))] }
     else s).comparisons = s.comparisons := by
    cases t <;> rfl
  rw [hcmp] at hmain
  cases t with
  | false =>
    simp only [Bool.false_eq_true, if_false] at hmain ⊢
    omega
  | true =>
    simp only [if_true] at hmain
    simp only [if_true, SortState.comparisons]
    omega

theorem _merge_sort_recursive_comparisons_le (arr : List α) (left right : Nat)
    (t : Bool) (s : SortState α) :
    (_merge_sort_recursive le arr left right t s).2.comparisons
      ≤ s.comparisons +
        (right + 1 - left) * Nat.clog 2 (right + 1 - left) := by
  by_cases h : left ≥ right
  · rw [_merge_sort_recursive, if_pos h]
    exact Nat.le_add_right _ _
  · rw [_merge_sort_recursive]
    rw [if_neg h]
    simp only []
    have hs1 : (if t = true then
        { s with steps := s.steps ++
            [Step.divide arr left right ((left + right) / 2)] }
       else s).comparisons = s.comparisons := by
      cases t <;> rfl
    have hx1 := _merge_sort_recursive_comparisons_le arr left ((left + right) / 2)
      t (if t = true then
          { s with steps := s.steps ++
              [Step.divide arr left right ((left + right) / 2)] }
         else s)
    rw [hs1] at hx1
    have hx2 := _merge_sort_recursive_comparisons_le
      (_merge_sort_recursive le arr left ((left + right) / 2) t
        (if t = true then
          { s with steps := s.steps ++
              [Step.divide arr left right ((left + right) / 2)] }
         else s)).1
      ((left + right) / 2 + 1) right t
      (_merge_sort_recursive le arr left ((left + right) / 2) t
        (if t = true then
          { s with steps := s.steps ++
              [Step.divide arr left right ((left + right) / 2)] }
         else s)).2
    have hx3 := _merge_comparisons_le le
      (_merge_sort_recursive le
        (_merge_sort_recursive le arr left ((left + right) / 2) t
          (if t = true then
            { s with steps := s.steps ++
                [Step.divide arr left right ((left + right) / 2)] }
           else s)).1
        ((left + right) / 2 + 1) right t
        (_merge_sort_recursive le arr left ((left + right) / 2) t
          (if t = true then
            { s with steps := s.steps ++
                [Step.divide arr left right ((left + right) / 2)] }
           else s)).2).1
      left ((left + right) / 2) right t
      (_merge_sort_recursive le
        (_merge_sort_recursive le arr left ((left + right) / 2) t
          (if t = true then
            { s with steps := s.steps ++
                [Step.divide arr left right ((left + right) / 2)] }
           else s)).1
        ((left + right) / 2 + 1) right t
        (_merge_sort_recursive le arr left ((left + right) / 2) t
          (if t = true then
            { s with steps := s.steps ++
                [Step.divide arr left right ((left + right) / 2)] }
           else s)).2).2
    set n := right + 1 - left with hn
    set a := (left + right) / 2 + 1 - left with ha'
    set b := right + 1 - ((left + right) / 2 + 1) with hb'
    have hab : a + b = n := by omega
    have ha : a = (n + 1) / 2 := by omega
    have hb : b ≤ a := by omega
    have hn2 : 2 ≤ n := by omega
    have hclog : Nat.clog 2 n = Nat.clog 2 ((n + 1) / 2) + 1 := by
      have h21 : n + 2 - 1 = n + 1 := by omega
      rw [Nat.clog_of_two_le one_lt_two hn2, h21]
    have hclog_a : Nat.clog 2 a = Nat.clog 2 ((n + 1) / 2) := by rw [ha]
    have hclog_b : Nat.clog 2 b ≤ Nat.clog 2 ((n + 1) / 2) := by
      rw [← ha]
      exact Nat.clog_mono_right 2 hb
    have hmul_a : a * Nat.clog 2 a = a * Nat.clog 2 ((n + 1) / 2) := by
      rw [hclog_a]
    have hmul_b : b * Nat.clog 2 b ≤ b * Nat.clog 2 ((n + 1) / 2) :=
      Nat.mul_le_mul_left b hclog_b
    have hfinal : a * Nat.clog 2 ((n + 1) / 2) + b * Nat.clog 2 ((n + 1) / 2) + n
        = n * Nat.clog 2 n := by
      calc a * Nat.clog 2 ((n + 1) / 2) + b * Nat.clog 2 ((n + 1) / 2) + n
          = (a + b) * Nat.clog 2 ((n + 1) / 2) + n := by ring
        _ = n * Nat.clog 2 ((n + 1) / 2) + n := by rw [hab]
        _ = n * (Nat.clog 2 ((n + 1) / 2) + 1) := by ring
        _ = n * Nat.clog 2 n := by rw [hclog]
    omega
termination_by right - left
decreasing_by
  · omega
  · omega

/-- C8: the recursion is well-founded (each recursive call strictly
shrinks the index range `[left, right]`, which is also the termination
measure the definitions above are compiled with), and an instrumented sort
performs at most `n * ceil(log2 n)` comparisons for `n` elements. -/
theorem merge_sort_total_nlogn :
    (∀ (arr : List α) (s : SortState α),
      (merge_sort le arr true s).2.comparisons
        ≤ arr.length * Nat.clog 2 arr.length) ∧
    (∀ left right : Nat, left < right →
      (left + right) / 2 - left < right - left ∧
      right - ((left + right) / 2 + 1) < right - left) := by
  constructor
  · intro arr s
    rw [merge_sort]
    by_cases h : arr.length ≤ 1
    · rw [if_pos h]
      simp
    · rw [if_neg h]
      simp only [reduceIte]
      have hb := _merge_sort_recursive_comparisons_le le arr 0 (arr.length - 1)
        true ⟨[], 0, 0⟩
      have he : arr.length - 1 + 1 - 0 = arr.length := by omega
      rw [he] at hb
      simpa using hb
  · intro left right hlt
    omega

/-- Witness for C8's range-shrinking conjunct at `left = 0`, `right = 1`. -/
theorem merge_sort_total_nlogn_witness :
    (0 : Nat) < 1 ∧
    ((0 + 1) / 2 - 0 < 1 - 0 ∧ 1 - ((0 + 1) / 2 + 1) < 1 - 0) :=
  ⟨by decide, (merge_sort_total_nlogn intLe).2 0 1 (by decide)⟩

omit [Inhabited α] in
theorem getD_set_ne_ref (l : List (List α)) (r q : Nat) (x : List α)
    (h : q ≠ r) : (l.set r x).getD q [] = l.getD q [] := by
  simp [List.getD_eq_getElem?_getD, List.getElem?_set_ne (by omega : r ≠ q)]

theorem mergeLoopRef_frame {L R : List α} {store : List (List α)} {r : Nat}
    {i j k : Nat} {t : Bool} {s : SortState α} (q : Nat) (hq : q ≠ r) :
    (mergeLoopRef le L R store r i j k t s).store.getD q []
      = store.getD q [] := by
  by_cases h : i < L.length ∧ j < R.length
  · rw [mergeLoopRef]
    simp only [dif_pos h]
    by_cases hle : le (L.getD i default) (R.getD j default) = true
    · rw [if_pos hle]
      rw [mergeLoopRef_frame q hq]
      exact getD_set_ne_ref store r q _ hq
    · rw [if_neg hle]
      rw [mergeLoopRef_frame q hq]
      exact getD_set_ne_ref store r q _ hq
  · rw [mergeLoopRef]
    simp only [dif_neg h]
termination_by L.length - i + (R.length - j)
decreasing_by
  · omega
  · omega

theorem copyRemainingRef_frame {buf : List α} {store : List (List α)}
    {r : Nat} {i k : Nat} {t : Bool} {s : SortState α} (q : Nat)
    (hq : q ≠ r) :
    (copyRemainingRef buf store r i k t s).store.getD q []
      = store.getD q [] := by
  by_cases h : i < buf.length
  · rw [copyRemainingRef]
    simp only [dif_pos h]
    rw [copyRemainingRef_frame q hq]
    exact getD_set_ne_ref store r q _ hq
  · rw [copyRemainingRef]
    simp only [dif_neg h]
termination_by buf.length - i
decreasing_by omega

theorem _mergeRef_frame {store : List (List α)} {r : Nat}
    {left mid right : Nat} {t : Bool} {s : SortState α} (q : Nat)
    (hq : q ≠ r) :
    (_mergeRef le store r left mid right t s).1.getD q []
      = store.getD q [] := by
  rw [_mergeRef]
  simp only []
  rw [copyRemainingRef_frame q hq, copyRemainingRef_frame q hq,
    mergeLoopRef_frame le q hq]

theorem _merge_sort_recursiveRef_frame {store : List (List α)} {r : Nat}
    {left right : Nat} {t : Bool} {s : SortState α} (q : Nat) (hq : q ≠ r) :
    (_merge_sort_recursiveRef le store r left right t s).1.getD q []
      = store.getD q [] := by
  by_cases h : left ≥ right
  · rw [_merge_sort_recursiveRef, if_pos h]
  · rw [_merge_sort_recursiveRef]
    rw [if_neg h]
    simp only []
    rw [_mergeRef_frame le q hq, _merge_sort_recursiveRef_frame q hq,
      _merge_sort_recursiveRef_frame q hq]
termination_by right - left
decreasing_by
  · omega
  · omega

/-- C4: the caller's list is never mutated: at the reference level, every
list object that existed in the store before the call — in particular the
caller's sequence at reference `r` — has exactly the same contents after
`merge_sort` returns, with either value of the instrumentation flag.
(The engine sorts a fresh copy allocated by `arr.copy()`.) -/
theorem merge_sort_caller_array_unchanged (store : List (List α)) (r : Nat)
    (t : Bool) (s : SortState α) (q : Nat) (hq : q < store.length) :
    ((merge_sortRef le store r t s).1).getD q [] = store.getD q [] := by
  rw [merge_sortRef]
  simp only []
  by_cases h : (store.getD r []).length ≤ 1
  · rw [if_pos h]
  · rw [if_neg h]
    rw [_merge_sort_recursiveRef_frame le q (by omega)]
    simp [List.getD_eq_getElem?_getD, List.getElem?_append_left hq]

/-- Witness for C4: sorting the stored list `[3, 1]` (reference 0) leaves
the caller's object unchanged. -/
theorem merge_sort_caller_array_unchanged_witness :
    0 < ([[3, 1]] : List (List Int)).length ∧
    ((merge_sortRef intLe [[3, 1]] 0 true ⟨[], 0, 0⟩).1).getD 0 []
      = ([[3, 1]] : List (List Int)).getD 0 [] :=
  ⟨by decide, merge_sort_caller_array_unchanged intLe [[3, 1]] 0 true
    ⟨[], 0, 0⟩ 0 (by decide)⟩

omit [Inhabited α] in
theorem getD_set_self_ref (l : List (List α)) (r : Nat) (x : List α)
    (h : r < l.length) : (l.set r x).getD r [] = x := by
  simp [List.getD_eq_getElem?_getD, List.getElem?_set_self h]

omit [Inhabited α] in
theorem set_getD_self_ref (l : List (List α)) (r : Nat) (h : r < l.length) :
    l.set r (l.getD r []) = l := by
  apply List.ext_getElem?
  intro n
  by_cases hn : n = r
  · subst hn
    rw [List.getElem?_set_self h]
    simp [List.getD_eq_getElem?_getD, List.getElem?_eq_getElem h]
  · exact List.getElem?_set_ne (fun he => hn he.symm)

theorem mergeLoopRef_step_left (L R : List α) (store : List (List α))
    (r i j k : Nat) (t : Bool) (s : SortState α)
    (h : i < L.length ∧ j < R.length)
    (hle : le (L.getD i default) (R.getD j default) = true) :
    mergeLoopRef le L R store r i j k t s =
      mergeLoopRef le L R
        (store.set r ((store.getD r []).set k (L.getD i default))) r
        (i + 1) j (k + 1) t
        ⟨(if t = true then
            s.steps ++ [Step.merge_step ((store.getD r []).set k (L.getD i default))
              (L.getD i default, R.getD j default) (L.getD i default) k]
          else s.steps),
         s.comparisons + 1, s.array_accesses + 2 + 1⟩ := by
  rw [mergeLoopRef]
  simp only [dif_pos h, if_pos hle]
  cases t <;> simp

theorem mergeLoopRef_step_right (L R : List α) (store : List (List α))
    (r i j k : Nat) (t : Bool) (s : SortState α)
    (h : i < L.length ∧ j < R.length)
    (hle : ¬ le (L.getD i default) (R.getD j default) = true) :
    mergeLoopRef le L R store r i j k t s =
      mergeLoopRef le L R
        (store.set r ((store.getD r []).set k (R.getD j default))) r
        i (j + 1) (k + 1) t
        ⟨(if t = true then
            s.steps ++ [Step.merge_step ((store.getD r []).set k (R.getD j default))
              (L.getD i default, R.getD j default) (R.getD j default) k]
          else s.steps),
         s.comparisons + 1, s.array_accesses + 2 + 1⟩ := by
  rw [mergeLoopRef]
  simp only [dif_pos h, if_neg hle]
  cases t <;> simp

theorem mergeLoopRef_exit (L R : List α) (store : List (List α))
    (r i j k : Nat) (t : Bool) (s : SortState α)
    (h : ¬ (i < L.length ∧ j < R.length)) :
    mergeLoopRef le L R store r i j k t s = ⟨store, i, j, k, s⟩ := by
  rw [mergeLoopRef]
  simp [dif_neg h]

theorem copyRemainingRef_step (buf : List α) (store : List (List α))
    (r i k : Nat) (t : Bool) (s : SortState α) (h : i < buf.length) :
    copyRemainingRef buf store r i k t s =
      copyRemainingRef buf
        (store.set r ((store.getD r []).set k (buf.getD i default))) r
        (i + 1) (k + 1) t
        ⟨(if t = true then
            s.steps ++ [Step.merge_remaining
              ((store.getD r []).set k (buf.getD i default))
              (buf.getD i default) k]
          else s.steps),
         s.comparisons, s.array_accesses + 1⟩ := by
  rw [copyRemainingRef]
  simp only [dif_pos h]
  cases t <;> simp

theorem copyRemainingRef_exit (buf : List α) (store : List (List α))
    (r i k : Nat) (t : Bool) (s : SortState α) (h : ¬ i < buf.length) :
    copyRemainingRef buf store r i k t s = ⟨store, k, s⟩ := by
  rw [copyRemainingRef]
  simp [dif_neg h]

theorem mergeLoopRef_refines (L R : List α) (store : List (List α))
    (r i j k : Nat) (t : Bool) (s : SortState α) (hr : r < store.length) :
    mergeLoopRef le L R store r i j k t s =
      ⟨store.set r (mergeLoop le L R (store.getD r []) i j k t s).arr,
       (mergeLoop le L R (store.getD r []) i j k t s).i,
       (mergeLoop le L R (store.getD r []) i j k t s).j,
       (mergeLoop le L R (store.getD r []) i j k t s).k,
       (mergeLoop le L R (store.getD r []) i j k t s).s⟩ := by
  by_cases h : i < L.length ∧ j < R.length
  · by_cases hle : le (L.getD i default) (R.getD j default) = true
    · rw [mergeLoopRef_step_left le L R store r i j k t s h hle]
      rw [mergeLoop_step_left le L R (store.getD r []) i j k t s h hle]
      rw [mergeLoopRef_refines L R _ r (i + 1) j (k + 1) t _ (by simp; omega)]
      rw [getD_set_self_ref store r _ hr, List.set_set]
    · rw [mergeLoopRef_step_right le L R store r i j k t s h hle]
      rw [mergeLoop_step_right le L R (store.getD r []) i j k t s h hle]
      rw [mergeLoopRef_refines L R _ r i (j + 1) (k + 1) t _ (by simp; omega)]
      rw [getD_set_self_ref store r _ hr, List.set_set]
  · rw [mergeLoopRef_exit le L R store r i j k t s h]
    rw [mergeLoop_exit le L R (store.getD r []) i j k t s h]
    rw [set_getD_self_ref store r hr]
termination_by L.length - i + (R.length - j)
decreasing_by
  · omega
  · omega

theorem copyRemainingRef_refines (buf : List α) (store : List (List α))
    (r i k : Nat) (t : Bool) (s : SortState α) (hr : r < store.length) :
    copyRemainingRef buf store r i k t s =
      ⟨store.set r (copyRemaining buf (store.getD r []) i k t s).arr,
       (copyRemaining buf (store.getD r []) i k t s).k,
       (copyRemaining buf (store.getD r []) i k t s).s⟩ := by
  by_cases h : i < buf.length
  · rw [copyRemainingRef_step buf store r i k t s h]
    rw [copyRemaining_step buf (store.getD r []) i k t s h]
    rw [copyRemainingRef_refines buf _ r (i + 1) (k + 1) t _ (by simp; omega)]
    rw [getD_set_self_ref store r _ hr, List.set_set]
  · rw [copyRemainingRef_exit buf store r i k t s h]
    rw [copyRemaining_exit buf (store.getD r []) i k t s h]
    rw [set_getD_self_ref store r hr]
termination_by buf.length - i
decreasing_by omega

theorem mergeLoopRef_store_length (L R : List α) (store : List (List α))
    (r i j k : Nat) (t : Bool) (s : SortState α) :
    (mergeLoopRef le L R store r i j k t s).store.length = store.length := by
  by_cases h : i < L.length ∧ j < R.length
  · by_cases hle : le (L.getD i default) (R.getD j default) = true
    · rw [mergeLoopRef_step_left le L R store r i j k t s h hle]
      rw [mergeLoopRef_store_length]
      simp
    · rw [mergeLoopRef_step_right le L R store r i j k t s h hle]
      rw [mergeLoopRef_store_length]
      simp
  · rw [mergeLoopRef_exit le L R store r i j k t s h]
termination_by L.length - i + (R.length - j)
decreasing_by
  · omega
  · omega

theorem copyRemainingRef_store_length (buf : List α) (store : List (List α))
    (r i k : Nat) (t : Bool) (s : SortState α) :
    (copyRemainingRef buf store r i k t s).store.length = store.length := by
  by_cases h : i < buf.length
  · rw [copyRemainingRef_step buf store r i k t s h]
    rw [copyRemainingRef_store_length]
    simp
  · rw [copyRemainingRef_exit buf store r i k t s h]
termination_by buf.length - i
decreasing_by omega

theorem _mergeRef_refines (store : List (List α)) (r : Nat)
    (left mid right : Nat) (t : Bool) (s : SortState α)
    (hr : r < store.length) :
    _mergeRef le store r left mid right t s =
      (store.set r (_merge le (store.getD r []) left mid right t s).1,
       (_merge le (store.getD r []) left mid right t s).2) := by
  rw [_mergeRef, _merge]
  simp only []
  rw [mergeLoopRef_refines le _ _ store r 0 0 left t _ hr]
  simp only [RefLoopOut.store, RefLoopOut.i, RefLoopOut.j, RefLoopOut.k,
    RefLoopOut.s]
  rw [copyRemainingRef_refines _ (store.set r _) r _ _ t _ (by simp; omega)]
  simp only [RefCopyOut.store, RefCopyOut.k, RefCopyOut.s]
  rw [getD_set_self_ref store r _ hr, List.set_set]
  rw [copyRemainingRef_refines _ (store.set r _) r _ _ t _ (by simp; omega)]
  simp only [RefCopyOut.store, RefCopyOut.k, RefCopyOut.s]
  rw [getD_set_self_ref store r _ hr, List.set_set]
  rw [getD_set_self_ref store r _ hr]

theorem _merge_sort_recursiveRef_refines (store : List (List α)) (r : Nat)
    (left right : Nat) (t : Bool) (s : SortState α) (hr : r < store.length) :
    _merge_sort_recursiveRef le store r left right t s =
      (store.set r (_merge_sort_recursive le (store.getD r []) left right t s).1,
       (_merge_sort_recursive le (store.getD r []) left right t s).2) := by
  by_cases h : left ≥ right
  · rw [_merge_sort_recursiveRef, _merge_sort_recursive, if_pos h, if_pos h]
    rw [set_getD_self_ref store r hr]
  · rw [_merge_sort_recursiveRef, _merge_sort_recursive, if_neg h, if_neg h]
    simp only []
    rw [_merge_sort_recursiveRef_refines store r left ((left + right) / 2) t _ hr]
    simp only []
    rw [_merge_sort_recursiveRef_refines (store.set r _) r
      ((left + right) / 2 + 1) right t _ (by simp; omega)]
    rw [getD_set_self_ref store r _ hr, List.set_set]
    simp only []
    rw [_mergeRef_refines le (store.set r _) r left ((left + right) / 2) right
      t _ (by simp; omega)]
    rw [getD_set_self_ref store r _ hr, List.set_set]
termination_by right - left
decreasing_by
  · omega
  · omega

/-- The reference-level model returns a reference to a fresh list whose
contents are exactly the result of the functional model, with the same
engine state: the two embeddings describe the same algorithm. -/
theorem merge_sortRef_refines (store : List (List α)) (r : Nat) (t : Bool)
    (s : SortState α) :
    ((merge_sortRef le store r t s).1).getD
        (merge_sortRef le store r t s).2.1 []
      = (merge_sort le (store.getD r []) t s).1 ∧
    (merge_sortRef le store r t s).2.2
      = (merge_sort le (store.getD r []) t s).2 := by
  rw [merge_sortRef, merge_sort]
  simp only []
  by_cases h : (store.getD r []).length ≤ 1
  · rw [if_pos h, if_pos h]
    exact ⟨rfl, rfl⟩
  · rw [if_neg h, if_neg h]
    have harr : (store ++ [store.getD r []]).getD store.length []
        = store.getD r [] := by
      simp [List.getD_eq_getElem?_getD, List.getElem?_concat_length]
    rw [_merge_sort_recursiveRef_refines le (store ++ [store.getD r []])
      store.length 0 ((store.getD r []).length - 1) t _ (by simp)]
    rw [harr]
    simp only []
    constructor
    · rw [getD_set_self_ref _ store.length _ (by simp)]
    · trivial

end AlgorithmViz
